import Mathlib

/-!
# Memory & RAG engine — verification development

The repository `astreus-ai/astreus-landing` is a documentation site for the
Astreus agent SDK.  The Memory & RAG engine it documents is not implemented in
the repository; only its contracts appear, in the documentation pages
`src/content/docs/concepts/memory.mdx` and `src/content/docs/concepts/rag.mdx`
and in the design specification reconstructed from them.  This file gives a
shallow embedding of that engine: each component (Chunker, Vector Index,
Memory Store with session partitioning, configuration resolution) is modelled
from the specification's words, except for the configuration tables, which are
embedded directly from the two documentation pages.  Theorems then settle the
documented contracts against the model.
-/

namespace Astreus

/-! ## Chunker -/

/-- Error taxonomy relevant to the modelled components.  `configurationError`
corresponds to the spec's `ConfigurationError` (invalid chunking parameters). -/
inductive ChunkError where
  | configurationError
deriving DecidableEq

/-- Modelled from the spec: the Chunker's window generator (the engine's
chunking loop is not in this repository).  Produces contiguous, overlapping
windows over `text`: each window is `size` characters (the final one may be
shorter), and consecutive windows advance by `step = chunkSize − chunkOverlap`
characters.  The final, possibly shorter window is always emitted. -/
def chunkWindows (text : List Char) (size step : Nat) : List (List Char) :=
  if h : text.length ≤ size ∨ step = 0 then [text]
  else text.take size :: chunkWindows (text.drop step) size step
termination_by text.length
decreasing_by
  simp only [not_or] at h
  simp only [List.length_drop]
  omega

/-- Modelled from the spec: construction-time validation of the chunking
parameters.  Fails with a `ConfigurationError` if `chunkOverlap ≥ chunkSize`. -/
def validateChunkConfig (chunkSize chunkOverlap : Nat) : Except ChunkError Unit :=
  if chunkSize ≤ chunkOverlap then .error .configurationError else .ok ()

/-- Modelled from the spec: `chunk(text, chunkSize, chunkOverlap)` — validates
the configuration, then emits the sequence of windows.  A pure function of its
inputs, hence deterministic by construction. -/
def chunk (text : List Char) (chunkSize chunkOverlap : Nat) :
    Except ChunkError (List (List Char)) :=
  match validateChunkConfig chunkSize chunkOverlap with
  | .error e => .error e
  | .ok _ => .ok (chunkWindows text chunkSize (chunkSize - chunkOverlap))

theorem chunkWindows_base {text : List Char} {size step : Nat}
    (h : text.length ≤ size ∨ step = 0) : chunkWindows text size step = [text] := by
  rw [chunkWindows]
  simp [h]

theorem chunkWindows_step {text : List Char} {size step : Nat}
    (h1 : size < text.length) (h2 : 0 < step) :
    chunkWindows text size step =
      text.take size :: chunkWindows (text.drop step) size step := by
  rw [chunkWindows]
  have : ¬ (text.length ≤ size ∨ step = 0) := by omega
  simp [this]

/-- The number of windows, by strong induction on the text length. -/
theorem chunkWindows_length (text : List Char) (size step : Nat)
    (hstep : 0 < step) :
    (chunkWindows text size step).length =
      if text.length ≤ size then 1 else (text.length - size + step - 1) / step + 1 := by
  revert hstep
  induction text, size, step using chunkWindows.induct with
  | case1 text size step h =>
    intro hstep
    rcases h with h | h
    · simp [chunkWindows_base (Or.inl h), h]
    · omega
  | case2 text size step h ih =>
    intro hstep
    have ih := ih hstep
    simp only [not_or] at h
    obtain ⟨h1, _⟩ := h
    have hlt : size < text.length := by omega
    rw [chunkWindows_step hlt hstep]
    simp only [List.length_cons, ih, List.length_drop, if_neg h1]
    by_cases hc : text.length - step ≤ size
    · rw [if_pos hc]
      have hdiv : (text.length - size + step - 1) / step = 1 :=
        Nat.div_eq_of_lt_le (by omega) (by omega)
      omega
    · rw [if_neg hc]
      have harith : text.length - size + step - 1 =
          (text.length - step - size + step - 1) + step := by omega
      rw [harith, Nat.add_div_right _ hstep]

/-- Every window is the `size`-character window at offset `i * step`. -/
theorem chunkWindows_get (text : List Char) (size step : Nat)
    (hstep : 0 < step) (i : Nat) (hi : i < (chunkWindows text size step).length) :
    (chunkWindows text size step)[i]? = some ((text.drop (i * step)).take size) := by
  revert hstep i
  induction text, size, step using chunkWindows.induct with
  | case1 text size step h =>
    intro hstep i hi
    rcases h with h | h
    · rw [chunkWindows_base (Or.inl h)] at hi ⊢
      simp only [List.length_singleton] at hi
      interval_cases i
      simp [List.take_of_length_le h]
    · omega
  | case2 text size step h ih =>
    intro hstep i hi
    simp only [not_or] at h
    obtain ⟨h1, _⟩ := h
    have hlt : size < text.length := by omega
    rw [chunkWindows_step hlt hstep] at hi ⊢
    cases i with
    | zero => simp
    | succ j =>
      simp only [List.length_cons, Nat.succ_lt_succ_iff] at hi
      simp only [List.getElem?_cons_succ]
      rw [ih hstep j hi]
      congr 2
      rw [List.drop_drop]
      congr 1
      ring

/-- Coverage: every character position lies inside some window. -/
theorem chunkWindows_cover (text : List Char) (size step : Nat)
    (hstep : 0 < step) (hss : step < size) (j : Nat) (hj : j < text.length) :
    ∃ i, i < (chunkWindows text size step).length ∧
      i * step ≤ j ∧ j < i * step + size := by
  revert hstep hss j
  induction text, size, step using chunkWindows.induct with
  | case1 text size step h =>
    intro hstep hss j hj
    rcases h with h | h
    · refine ⟨0, ?_, by omega, by omega⟩
      rw [chunkWindows_base (Or.inl h)]
      simp
    · omega
  | case2 text size step h ih =>
    intro hstep hss j hj
    simp only [not_or] at h
    obtain ⟨h1, _⟩ := h
    have hlt : size < text.length := by omega
    rw [chunkWindows_step hlt hstep]
    by_cases hj0 : j < size
    · exact ⟨0, by simp, by omega, by omega⟩
    · have hjs : step ≤ j := by omega
      have hj' : j - step < (text.drop step).length := by
        simp only [List.length_drop]; omega
      obtain ⟨i, hilen, hlow, hhigh⟩ := ih hstep hss (j - step) hj'
      refine ⟨i + 1, ?_, ?_, ?_⟩
      · simpa using Nat.succ_lt_succ hilen
      · have : (i + 1) * step = i * step + step := by ring
        omega
      · have : (i + 1) * step = i * step + step := by ring
        omega

/-- C1: for every text of length `L` and every configuration with
`0 < chunkOverlap < chunkSize`, `chunk` succeeds and returns contiguous
overlapping windows advancing by `chunkSize - chunkOverlap` characters per
step (window `i` is the `chunkSize`-character window at offset
`i * (chunkSize - chunkOverlap)`, the final window possibly shorter and always
emitted), the windows cover every character position with no gaps, and the
number of chunks is `ceil((L - overlap) / (chunkSize - overlap))`, or `1` when
`L ≤ chunkSize`.  Determinism holds by construction: `chunk` is a pure
function of its inputs. -/
theorem chunker_coverage_and_count (text : List Char) (chunkSize chunkOverlap : Nat)
    (hov : 0 < chunkOverlap) (hlt : chunkOverlap < chunkSize) :
    ∃ cl, chunk text chunkSize chunkOverlap = .ok cl ∧
      cl.length = (if text.length ≤ chunkSize then 1
        else (text.length - chunkOverlap + (chunkSize - chunkOverlap) - 1) /
          (chunkSize - chunkOverlap)) ∧
      (∀ i, i < cl.length →
        cl[i]? = some ((text.drop (i * (chunkSize - chunkOverlap))).take chunkSize)) ∧
      (∀ j, j < text.length → ∃ i, i < cl.length ∧
        i * (chunkSize - chunkOverlap) ≤ j ∧
        j < i * (chunkSize - chunkOverlap) + chunkSize) := by
  have hstep : 0 < chunkSize - chunkOverlap := by omega
  have hv : validateChunkConfig chunkSize chunkOverlap = .ok () := by
    rw [validateChunkConfig, if_neg (by omega)]
  refine ⟨chunkWindows text chunkSize (chunkSize - chunkOverlap), ?_, ?_, ?_, ?_⟩
  · simp only [chunk, hv]
  · rw [chunkWindows_length text chunkSize _ hstep]
    by_cases hL : text.length ≤ chunkSize
    · rw [if_pos hL, if_pos hL]
    · rw [if_neg hL, if_neg hL]
      have harith : text.length - chunkOverlap + (chunkSize - chunkOverlap) - 1 =
          (text.length - chunkSize + (chunkSize - chunkOverlap) - 1) +
            (chunkSize - chunkOverlap) := by omega
      rw [harith, Nat.add_div_right _ hstep]
  · exact chunkWindows_get text chunkSize _ hstep
  · exact chunkWindows_cover text chunkSize _ hstep (by omega)

/-- Witness for C1 at the concrete text "abcdefghij" with
`chunkSize = 5`, `chunkOverlap = 2`. -/
theorem chunker_coverage_and_count_witness :
    ∃ cl, chunk ("abcdefghij".toList) 5 2 = .ok cl ∧
      cl.length = (if ("abcdefghij".toList).length ≤ 5 then 1
        else (("abcdefghij".toList).length - 2 + (5 - 2) - 1) / (5 - 2)) ∧
      (∀ i, i < cl.length →
        cl[i]? = some ((("abcdefghij".toList).drop (i * (5 - 2))).take 5)) ∧
      (∀ j, j < ("abcdefghij".toList).length → ∃ i, i < cl.length ∧
        i * (5 - 2) ≤ j ∧ j < i * (5 - 2) + 5) :=
  chunker_coverage_and_count ("abcdefghij".toList) 5 2 (by decide) (by decide)

/-- C8: `chunk` fails with a `ConfigurationError` exactly when
`chunkOverlap ≥ chunkSize` (both parameters strictly positive), and a failed
configuration validation is fatal: every use of the component with that
configuration fails with the same error, for every text. -/
theorem chunker_config_error_iff (text : List Char) (chunkSize chunkOverlap : Nat)
    (hcs : 0 < chunkSize) (hov : 0 < chunkOverlap) :
    (chunk text chunkSize chunkOverlap = .error .configurationError ↔
      chunkSize ≤ chunkOverlap) ∧
    (∀ e, validateChunkConfig chunkSize chunkOverlap = .error e →
      chunk text chunkSize chunkOverlap = .error e) := by
  constructor
  · by_cases hle : chunkSize ≤ chunkOverlap
    · have hv : validateChunkConfig chunkSize chunkOverlap = .error .configurationError := by
        rw [validateChunkConfig, if_pos hle]
      simp [chunk, hv, hle]
    · have hv : validateChunkConfig chunkSize chunkOverlap = .ok () := by
        rw [validateChunkConfig, if_neg hle]
      simp [chunk, hv, hle]
  · intro e he
    simp only [chunk, he]

/-- Witness for C8 at the invalid configuration `chunkSize = 3`,
`chunkOverlap = 5`. -/
theorem chunker_config_error_iff_witness :
    (chunk ("ab".toList) 3 5 = .error .configurationError ↔ 3 ≤ 5) ∧
    (∀ e, validateChunkConfig 3 5 = .error e → chunk ("ab".toList) 3 5 = .error e) :=
  chunker_config_error_iff ("ab".toList) 3 5 (by decide) (by decide)

/-! ## Vector Index -/

/-- Modelled from the spec: an embedding vector (a fixed-length numeric
vector; rationals stand in for the floats of the implementation). -/
abbrev Vec := List ℚ

/-- Modelled from the spec: the Vector Index holds one embedding per id.
Entries are kept in insertion order (earlier-inserted first), which is what
the tie-break of `query` is stated against. -/
structure VIndex where
  entries : List (Nat × Vec)
deriving DecidableEq

/-- Modelled from the spec: `upsert(id, vector)` — replaces the vector in
place when the id is already present, otherwise appends at the end
(preserving insertion order). -/
def VIndex.upsert (idx : VIndex) (id : Nat) (v : Vec) : VIndex :=
  if idx.entries.any (fun p => p.1 = id) then
    ⟨idx.entries.map (fun p => if p.1 = id then (id, v) else p)⟩
  else ⟨idx.entries ++ [(id, v)]⟩

/-- Modelled from the spec: `remove(id)` — deletes the embedding held for
`id`. -/
def VIndex.remove (idx : VIndex) (id : Nat) : VIndex :=
  ⟨idx.entries.filter (fun p => ¬ p.1 = id)⟩

/-- Cascade removal of a set of ids (used by the Memory Store's `delete` and
`clear`). -/
def VIndex.removeMany (idx : VIndex) (ids : List Nat) : VIndex :=
  ⟨idx.entries.filter (fun p => ¬ p.1 ∈ ids)⟩

/-- Stable insertion into a descending-by-score list: the new pair goes after
every element with a strictly greater score and before the first element with
score ≤ its own.  Under the fold of `sortByScoreDesc` this keeps
earlier-inserted pairs first among equal scores. -/
def insertDesc (p : Nat × ℚ) : List (Nat × ℚ) → List (Nat × ℚ)
  | [] => [p]
  | q :: rest => if p.2 < q.2 then q :: insertDesc p rest else p :: q :: rest

/-- Stable insertion sort, descending by score. -/
def sortByScoreDesc : List (Nat × ℚ) → List (Nat × ℚ)
  | [] => []
  | x :: xs => insertDesc x (sortByScoreDesc xs)

/-- Modelled from the spec: `query(vector, limit, threshold)` — scores every
entry with the similarity function `sim`, keeps the scores meeting the
threshold, sorts descending by score with insertion-order tie-break, and
truncates to `limit`.  The similarity metric is a parameter because the spec
leaves the metric choice (raw cosine in `[-1,1]` vs. normalized `[0,1]`) to
the implementer; the contract proved below holds for any choice. -/
def VIndex.query (idx : VIndex) (sim : Vec → Vec → ℚ) (v : Vec)
    (limit : Nat) (threshold : ℚ) : List (Nat × ℚ) :=
  (sortByScoreDesc ((idx.entries.map (fun p => (p.1, sim p.2 v))).filter
    (fun p => threshold ≤ p.2))).take limit

theorem insertDesc_perm (p : Nat × ℚ) (l : List (Nat × ℚ)) :
    List.Perm (insertDesc p l) (p :: l) := by
  induction l with
  | nil => rfl
  | cons q rest ih =>
    rw [insertDesc]
    by_cases hc : p.2 < q.2
    · rw [if_pos hc]
      exact List.Perm.trans (ih.cons q) (List.Perm.swap _ _ _)
    · rw [if_neg hc]

theorem sortByScoreDesc_perm (l : List (Nat × ℚ)) :
    List.Perm (sortByScoreDesc l) l := by
  induction l with
  | nil => rfl
  | cons x xs ih => exact List.Perm.trans (insertDesc_perm x _) (ih.cons x)

theorem insertDesc_sorted (p : Nat × ℚ) (l : List (Nat × ℚ))
    (hl : l.Pairwise (fun a b => b.2 ≤ a.2)) :
    (insertDesc p l).Pairwise (fun a b => b.2 ≤ a.2) := by
  induction l with
  | nil => simp [insertDesc]
  | cons q rest ih =>
    rw [List.pairwise_cons] at hl
    obtain ⟨hq, hrest⟩ := hl
    rw [insertDesc]
    by_cases hc : p.2 < q.2
    · rw [if_pos hc]
      rw [List.pairwise_cons]
      refine ⟨?_, ih hrest⟩
      intro b hb
      have hb' : b ∈ p :: rest := (insertDesc_perm p rest).mem_iff.mp hb
      rcases List.mem_cons.mp hb' with hb' | hb'
      · rw [hb']; exact le_of_lt hc
      · exact hq b hb'
    · rw [if_neg hc]
      push_neg at hc
      rw [List.pairwise_cons]
      refine ⟨?_, List.pairwise_cons.mpr ⟨hq, hrest⟩⟩
      intro b hb
      rcases List.mem_cons.mp hb with hb | hb
      · rw [hb]; exact hc
      · exact le_trans (hq b hb) hc

theorem sortByScoreDesc_sorted (l : List (Nat × ℚ)) :
    (sortByScoreDesc l).Pairwise (fun a b => b.2 ≤ a.2) := by
  induction l with
  | nil => simp [sortByScoreDesc]
  | cons x xs ih => exact insertDesc_sorted x _ ih

/-- Stability of `insertDesc`: restricted to any one score value `s`, the
inserted element lands at the front of the equal-score block (every element it
skips has a strictly greater score).  `sortByScoreDesc` inserts earlier
candidates into the already-sorted later ones, so this makes earlier
candidates come first among equal scores. -/
theorem insertDesc_filter_score (p : Nat × ℚ) (l : List (Nat × ℚ)) (s : ℚ) :
    (insertDesc p l).filter (fun q => q.2 = s) =
      if p.2 = s then p :: l.filter (fun q => q.2 = s)
      else l.filter (fun q => q.2 = s) := by
  induction l with
  | nil =>
    by_cases hp : p.2 = s <;> simp [insertDesc, hp]
  | cons q rest ih =>
    rw [insertDesc]
    by_cases hc : p.2 < q.2
    · rw [if_pos hc]
      by_cases hp : p.2 = s
      · have hqs : ¬ q.2 = s := by
          intro hqs
          rw [hp, hqs] at hc
          exact lt_irrefl s hc
        simp only [List.filter_cons, ih, if_pos hp]
        simp [hqs]
      · simp only [List.filter_cons, ih, if_neg hp]
    · rw [if_neg hc]
      by_cases hp : p.2 = s
      · simp only [if_pos hp, List.filter_cons]
        simp [hp]
      · simp only [if_neg hp, List.filter_cons]
        simp [hp]

/-- Stability of the sort: restricted to any one score value, sorting is the
identity — candidates with equal score keep their original relative order. -/
theorem sortByScoreDesc_filter_score (l : List (Nat × ℚ)) (s : ℚ) :
    (sortByScoreDesc l).filter (fun q => q.2 = s) =
      l.filter (fun q => q.2 = s) := by
  induction l with
  | nil => rfl
  | cons x xs ih =>
    rw [sortByScoreDesc, insertDesc_filter_score, List.filter_cons]
    by_cases hx : x.2 = s
    · simp [hx, ih]
    · simp [hx, ih]

/-- Every query result is one of the threshold-passing scored candidates. -/
theorem mem_query (idx : VIndex) (sim : Vec → Vec → ℚ) (v : Vec)
    (limit : Nat) (threshold : ℚ) (p : Nat × ℚ)
    (hp : p ∈ idx.query sim v limit threshold) :
    p ∈ (idx.entries.map (fun q => (q.1, sim q.2 v))).filter
      (fun q => threshold ≤ q.2) := by
  have h1 : p ∈ sortByScoreDesc ((idx.entries.map (fun q => (q.1, sim q.2 v))).filter
      (fun q => threshold ≤ q.2)) := List.take_subset _ _ hp
  exact (sortByScoreDesc_perm _).mem_iff.mp h1

/-- Every query result's id is the id of some index entry. -/
theorem mem_query_id (idx : VIndex) (sim : Vec → Vec → ℚ) (v : Vec)
    (limit : Nat) (threshold : ℚ) (p : Nat × ℚ)
    (hp : p ∈ idx.query sim v limit threshold) :
    ∃ q ∈ idx.entries, p.1 = q.1 := by
  have h1 := (List.mem_filter.mp (mem_query idx sim v limit threshold p hp)).1
  obtain ⟨q, hq, hpq⟩ := List.mem_map.mp h1
  exact ⟨q, hq, by rw [← hpq]⟩

theorem query_length_le (idx : VIndex) (sim : Vec → Vec → ℚ) (v : Vec)
    (limit : Nat) (threshold : ℚ) :
    (idx.query sim v limit threshold).length ≤ limit :=
  List.length_take_le _ _

theorem query_threshold (idx : VIndex) (sim : Vec → Vec → ℚ) (v : Vec)
    (limit : Nat) (threshold : ℚ) :
    ∀ p ∈ idx.query sim v limit threshold, threshold ≤ p.2 := by
  intro p hp
  have h2 := (List.mem_filter.mp (mem_query idx sim v limit threshold p hp)).2
  exact of_decide_eq_true h2

theorem query_sorted (idx : VIndex) (sim : Vec → Vec → ℚ) (v : Vec)
    (limit : Nat) (threshold : ℚ) :
    (idx.query sim v limit threshold).Pairwise (fun a b => b.2 ≤ a.2) :=
  List.Pairwise.sublist (List.take_sublist _ _) (sortByScoreDesc_sorted _)

/-- Stability of the tie-break: restricted to any single score value, the
query result is a prefix of the threshold-passing candidates in insertion
order. -/
theorem query_stable (idx : VIndex) (sim : Vec → Vec → ℚ) (v : Vec)
    (limit : Nat) (threshold : ℚ) (s : ℚ) :
    ∃ t, (idx.query sim v limit threshold).filter (fun p => p.2 = s) ++ t =
      ((idx.entries.map (fun p => (p.1, sim p.2 v))).filter
        (fun p => threshold ≤ p.2)).filter (fun p => p.2 = s) := by
  refine ⟨((sortByScoreDesc ((idx.entries.map (fun p => (p.1, sim p.2 v))).filter
    (fun p => threshold ≤ p.2))).drop limit).filter (fun p => p.2 = s), ?_⟩
  rw [VIndex.query, ← List.filter_append, List.take_append_drop,
    sortByScoreDesc_filter_score]

/-- C2: for every index state, similarity function, query vector, limit and
threshold, `query` returns at most `limit` results, every returned score is at
least `threshold`, results are sorted descending by score, and equal-score
results appear in insertion order: restricted to any single score value, the
result sequence is a prefix of the threshold-passing candidates in insertion
order (the stable tie-break of the spec). -/
theorem vector_index_query_contract (idx : VIndex) (sim : Vec → Vec → ℚ)
    (v : Vec) (limit : Nat) (threshold : ℚ) :
    (idx.query sim v limit threshold).length ≤ limit ∧
    (∀ p ∈ idx.query sim v limit threshold, threshold ≤ p.2) ∧
    (idx.query sim v limit threshold).Pairwise (fun a b => b.2 ≤ a.2) ∧
    (∀ s : ℚ, ∃ t, (idx.query sim v limit threshold).filter (fun p => p.2 = s) ++ t =
      ((idx.entries.map (fun p => (p.1, sim p.2 v))).filter
        (fun p => threshold ≤ p.2)).filter (fun p => p.2 = s)) :=
  ⟨query_length_le idx sim v limit threshold,
   query_threshold idx sim v limit threshold,
   query_sorted idx sim v limit threshold,
   query_stable idx sim v limit threshold⟩

/-! ## Memory Store -/

/-- The role of a conversation entry. -/
inductive Role where
  | user
  | assistant
  | system
  | tool
deriving DecidableEq

/-- Modelled from the spec: a `MemoryEntry` — an append-only conversation
record.  `metadata` is an opaque blob in the storage contract and no
documented behaviour depends on it, so it is omitted from the embedding. -/
structure MemoryEntry where
  id : Nat
  sessionId : String
  userId : Option String
  role : Role
  content : String
  createdAt : Nat
  embedding : Option Vec
deriving DecidableEq

/-- Modelled from the spec and `memory.mdx`: the caller-facing payload of
`memory.add`.  `sessionId` is an optional field and defaults to
`"default"`. -/
structure AddInput where
  role : Role
  content : String
  sessionId : Option String := none
  userId : Option String := none
deriving DecidableEq

/-- An upstream embedding failure (the spec's `EmbeddingProviderError`,
carrying its cause). -/
structure EmbedError where
  cause : String
deriving DecidableEq

/-- The per-call report of `add`: the assigned id, plus the embedding
failure reported distinctly when one occurred. -/
structure AddReport where
  id : Nat
  embeddingError : Option EmbedError
deriving DecidableEq

/-- Modelled from the spec: the Memory Store — a session-partitioned log of
conversation entries, mirrored into a Vector Index when embeddings are
enabled.  `nextId` and `clock` model unique id and creation-timestamp
assignment. -/
structure MemoryStore where
  entries : List MemoryEntry
  index : VIndex
  nextId : Nat
  clock : Nat
  maxEntries : Nat
  enableEmbeddings : Bool
deriving DecidableEq

/-- Modelled from the spec: the state of a freshly constructed instance. -/
def MemoryStore.empty (maxEntries : Nat) (enableEmbeddings : Bool) : MemoryStore :=
  ⟨[], ⟨[]⟩, 0, 0, maxEntries, enableEmbeddings⟩

/-- Modelled from the spec: `getBySession(sessionId)` with no limit — the
session's live entries in insertion order, most-recent-last. -/
def MemoryStore.getBySession (st : MemoryStore) (sid : String) : List MemoryEntry :=
  st.entries.filter (fun e => e.sessionId = sid)

/-- Modelled from the spec: `count(sessionId)` — the number of live entries
of the session. -/
def MemoryStore.count (st : MemoryStore) (sid : String) : Nat :=
  (st.getBySession sid).length

/-- The entry a call to `add` constructs: fresh id, current timestamp,
effective session id (`"default"` when none is supplied), and the embedding
when one was computed. -/
def MemoryStore.freshEntry (st : MemoryStore) (inp : AddInput)
    (emb : Option Vec) : MemoryEntry :=
  { id := st.nextId
    sessionId := inp.sessionId.getD "default"
    userId := inp.userId
    role := inp.role
    content := inp.content
    createdAt := st.clock
    embedding := emb }

/-- The entry stored by `add` given the provider's embedding outcome. -/
def MemoryStore.addedEntry (st : MemoryStore) (inp : AddInput)
    (embedOut : Except EmbedError Vec) : MemoryEntry :=
  st.freshEntry inp (if st.enableEmbeddings then embedOut.toOption else none)

/-- Modelled from the spec: `add(entry)` — assigns a unique id and creation
timestamp and appends to the session's log.  When `enableEmbeddings` is
configured, the outcome `embedOut` of the external embedding provider is
stored in the Vector Index on success; on failure the add still succeeds, the
entry is stored without a retrievable embedding, and the failure is reported
distinctly in the `AddReport`.  On overflow of the per-session `maxEntries`
cap the oldest entry of that same session is evicted (FIFO, at add time) and
its vector-index record cascades away. -/
def MemoryStore.add (st : MemoryStore) (inp : AddInput)
    (embedOut : Except EmbedError Vec) : MemoryStore × AddReport :=
  let entry := st.addedEntry inp embedOut
  let embErr : Option EmbedError :=
    if st.enableEmbeddings then
      match embedOut with
      | .ok _ => none
      | .error e => some e
    else none
  let entries1 := st.entries ++ [entry]
  let sessionLog := entries1.filter (fun e => e.sessionId = entry.sessionId)
  let overflow := st.maxEntries < sessionLog.length
  let evicted : Option MemoryEntry := if overflow then sessionLog.head? else none
  let entries2 :=
    if overflow then entries1.eraseP (fun e => e.sessionId = entry.sessionId)
    else entries1
  let index1 := match entry.embedding with
    | some v => st.index.upsert entry.id v
    | none => st.index
  let index2 := match evicted with
    | some e => index1.remove e.id
    | none => index1
  (⟨entries2, index2, st.nextId + 1, st.clock + 1, st.maxEntries, st.enableEmbeddings⟩,
   ⟨entry.id, embErr⟩)

/-- Modelled from the spec: `delete(ids)` — removes the entries and cascades
the Vector Index removal; returns the count removed. -/
def MemoryStore.delete (st : MemoryStore) (ids : List Nat) : MemoryStore × Nat :=
  let removed := st.entries.filter (fun e => e.id ∈ ids)
  (⟨st.entries.filter (fun e => ¬ e.id ∈ ids), st.index.removeMany ids,
    st.nextId, st.clock, st.maxEntries, st.enableEmbeddings⟩, removed.length)

/-- Modelled from the spec: `clear(sessionId)` — removes the whole session
and cascades the Vector Index removal; returns the count removed. -/
def MemoryStore.clear (st : MemoryStore) (sid : String) : MemoryStore × Nat :=
  let removed := st.entries.filter (fun e => e.sessionId = sid)
  (⟨st.entries.filter (fun e => ¬ e.sessionId = sid),
    st.index.removeMany (removed.map (fun e => e.id)),
    st.nextId, st.clock, st.maxEntries, st.enableEmbeddings⟩, removed.length)

/-- The ids of the live entries of a session. -/
def MemoryStore.sessionIds (st : MemoryStore) (sid : String) : List Nat :=
  (st.getBySession sid).map (fun e => e.id)

/-- Modelled from the spec: `searchSimilar(queryText, {sessionId?, limit,
threshold})`.  The query text has been embedded by the external provider into
`qv`; when a session id is supplied, the Vector Index is restricted to that
session's entries before the search runs (a pre-filter, keeping `limit`
meaningful), and the restricted index is searched as usual. -/
def MemoryStore.searchSimilar (st : MemoryStore) (sim : Vec → Vec → ℚ)
    (qv : Vec) (sessionId : Option String) (limit : Nat) (threshold : ℚ) :
    List (Nat × ℚ) :=
  let idx : VIndex :=
    match sessionId with
    | some sid => ⟨st.index.entries.filter (fun p => p.1 ∈ st.sessionIds sid)⟩
    | none => st.index
  idx.query sim qv limit threshold

/-- Store states reachable from a fresh instance through the public
operations. -/
inductive Reachable : MemoryStore → Prop where
  | init (maxEntries : Nat) (enableEmbeddings : Bool) :
      Reachable (MemoryStore.empty maxEntries enableEmbeddings)
  | add (st : MemoryStore) (inp : AddInput) (embedOut : Except EmbedError Vec) :
      Reachable st → Reachable (st.add inp embedOut).1
  | delete (st : MemoryStore) (ids : List Nat) :
      Reachable st → Reachable (st.delete ids).1
  | clear (st : MemoryStore) (sid : String) :
      Reachable st → Reachable (st.clear sid).1

/-! ### List lemmas about `eraseP` used by the eviction proofs -/

theorem filter_eraseP_self {α : Type} (p : α → Bool) (l : List α) :
    (l.eraseP p).filter p = (l.filter p).tail := by
  induction l with
  | nil => rfl
  | cons a l ih =>
    by_cases ha : p a
    · rw [List.eraseP_cons_of_pos ha, List.filter_cons_of_pos ha, List.tail_cons]
    · rw [List.eraseP_cons_of_neg ha, List.filter_cons_of_neg ha,
        List.filter_cons_of_neg ha, ih]

theorem filter_eraseP_of_disjoint {α : Type} (p q : α → Bool) (l : List α)
    (h : ∀ a, p a = true → q a = false) :
    (l.eraseP p).filter q = l.filter q := by
  induction l with
  | nil => rfl
  | cons a l ih =>
    by_cases ha : p a
    · rw [List.eraseP_cons_of_pos ha, List.filter_cons_of_neg]
      simp [h a ha]
    · rw [List.eraseP_cons_of_neg ha, List.filter_cons, List.filter_cons, ih]

/-- How one `add` transforms the session views: other sessions are untouched,
and the target session gets the new entry appended, with its own oldest entry
dropped exactly when the cap is exceeded. -/
theorem add_getBySession (st : MemoryStore) (inp : AddInput)
    (eo : Except EmbedError Vec) :
    (∀ s, ¬ s = (st.addedEntry inp eo).sessionId →
      (st.add inp eo).1.getBySession s = st.getBySession s) ∧
    ((st.add inp eo).1.getBySession (st.addedEntry inp eo).sessionId =
      if st.maxEntries < (st.getBySession (st.addedEntry inp eo).sessionId).length + 1
      then (st.getBySession (st.addedEntry inp eo).sessionId ++ [st.addedEntry inp eo]).tail
      else st.getBySession (st.addedEntry inp eo).sessionId ++ [st.addedEntry inp eo]) := by
  set entry := st.addedEntry inp eo with hentry
  have hfill : (st.entries ++ [entry]).filter (fun e => e.sessionId = entry.sessionId) =
      st.entries.filter (fun e => e.sessionId = entry.sessionId) ++ [entry] := by
    rw [List.filter_append]
    simp
  constructor
  · intro s hs
    show ((st.add inp eo).1.entries).filter (fun e => e.sessionId = s) = _
    simp only [MemoryStore.add]
    by_cases hov : st.maxEntries <
        ((st.entries ++ [entry]).filter (fun e => e.sessionId = entry.sessionId)).length
    · rw [if_pos hov]
      rw [filter_eraseP_of_disjoint]
      · rw [List.filter_append]
        have : [entry].filter (fun e => e.sessionId = s) = [] := by
          simp only [List.filter_cons, List.filter_nil]
          have : ¬ entry.sessionId = s := fun hc => hs hc.symm
          simp [this]
        rw [this, List.append_nil]
        rfl
      · intro a hpa
        have h1 : a.sessionId = entry.sessionId := of_decide_eq_true hpa
        have h2 : ¬ a.sessionId = s := by
          rw [h1]
          intro hc
          exact hs hc.symm
        simp [h2]
    · rw [if_neg hov]
      rw [List.filter_append]
      have : [entry].filter (fun e => e.sessionId = s) = [] := by
        simp only [List.filter_cons, List.filter_nil]
        have : ¬ entry.sessionId = s := fun hc => hs hc.symm
        simp [this]
      rw [this, List.append_nil]
      rfl
  · show ((st.add inp eo).1.entries).filter (fun e => e.sessionId = entry.sessionId) = _
    simp only [MemoryStore.add]
    by_cases hov : st.maxEntries <
        ((st.entries ++ [entry]).filter (fun e => e.sessionId = entry.sessionId)).length
    · rw [if_pos hov]
      have hcond : st.maxEntries <
          (st.getBySession entry.sessionId).length + 1 := by
        rw [hfill, List.length_append, List.length_singleton] at hov
        exact hov
      rw [if_pos hcond, filter_eraseP_self, hfill]
      rfl
    · rw [if_neg hov]
      have hcond : ¬ st.maxEntries <
          (st.getBySession entry.sessionId).length + 1 := by
        rw [hfill, List.length_append, List.length_singleton] at hov
        exact hov
      rw [if_neg hcond, hfill]
      rfl

/-- C3: whenever an `add` makes a session exceed `maxEntries`, the oldest
entry of that same session is evicted first (FIFO, at add time: the session's
view loses exactly its head), and no entry of any other session is ever
evicted (other sessions' views are unchanged by the `add`).  In particular,
with `maxEntries = 2`, adding three entries to one session leaves exactly the
two most recent in `getBySession`. -/
theorem memory_maxEntries_fifo (st : MemoryStore) (inp : AddInput)
    (eo : Except EmbedError Vec) :
    (∀ s, ¬ s = (st.addedEntry inp eo).sessionId →
      (st.add inp eo).1.getBySession s = st.getBySession s) ∧
    ((st.add inp eo).1.getBySession (st.addedEntry inp eo).sessionId =
      if st.maxEntries < (st.getBySession (st.addedEntry inp eo).sessionId).length + 1
      then (st.getBySession (st.addedEntry inp eo).sessionId ++ [st.addedEntry inp eo]).tail
      else st.getBySession (st.addedEntry inp eo).sessionId ++ [st.addedEntry inp eo]) ∧
    (((((MemoryStore.empty 2 false).add ⟨Role.user, "one", some "s1", none⟩ (.ok [])).1.add
        ⟨Role.user, "two", some "s1", none⟩ (.ok [])).1.add
        ⟨Role.user, "three", some "s1", none⟩ (.ok [])).1.getBySession "s1" =
      [⟨1, "s1", none, Role.user, "two", 1, none⟩,
       ⟨2, "s1", none, Role.user, "three", 2, none⟩]) :=
  ⟨(add_getBySession st inp eo).1, (add_getBySession st inp eo).2, by decide⟩

theorem filter_not_filter_self {α : Type} (p : α → Prop) [DecidablePred p]
    (l : List α) :
    (l.filter (fun a => ¬ p a)).filter (fun a => p a) = [] := by
  induction l with
  | nil => rfl
  | cons a l ih =>
    by_cases ha : p a
    · rw [List.filter_cons_of_neg (by simp [ha]), ih]
    · rw [List.filter_cons_of_pos (by simp [ha]),
        List.filter_cons_of_neg (by simp [ha]), ih]

theorem tail_append_singleton_of_ne_nil {α : Type} {l : List α} (a : α)
    (h : ¬ l = []) : (l ++ [a]).tail = l.tail ++ [a] := by
  cases l with
  | nil => exact absurd rfl h
  | cons b l => rfl

/-- C6: `add` followed by `getBySession` with no limit returns the added
entry, appended at the most-recent end of the session's view (insertion
order is preserved: the rest of the view is a suffix-stable prefix of the old
one); `count(sessionId)` equals the number of live entries of that session;
after `clear(sessionId)`, `count` is `0` and `getBySession` is empty.  The
documented scenario: adding a user then an assistant entry to `"s1"` yields
both in insertion order with `count = 2`, and `clear("s1")` resets the
session.  The cap must admit at least one entry per session
(`1 ≤ maxEntries`), else the add itself is immediately evicted. -/
theorem memory_store_session_log (st : MemoryStore) (inp : AddInput)
    (eo : Except EmbedError Vec) (hmax : 1 ≤ st.maxEntries) :
    (∃ pre, (st.add inp eo).1.getBySession (st.addedEntry inp eo).sessionId =
      pre ++ [st.addedEntry inp eo]) ∧
    (∀ sid, st.count sid = (st.entries.filter (fun e => e.sessionId = sid)).length) ∧
    (∀ sid, ((st.clear sid).1).count sid = 0 ∧
      ((st.clear sid).1).getBySession sid = []) ∧
    ((((MemoryStore.empty 100 false).add ⟨Role.user, "hello", some "s1", none⟩
        (.ok [])).1.add ⟨Role.assistant, "hi", some "s1", none⟩ (.ok [])).1.getBySession "s1" =
      [⟨0, "s1", none, Role.user, "hello", 0, none⟩,
       ⟨1, "s1", none, Role.assistant, "hi", 1, none⟩]) ∧
    ((((MemoryStore.empty 100 false).add ⟨Role.user, "hello", some "s1", none⟩
        (.ok [])).1.add ⟨Role.assistant, "hi", some "s1", none⟩ (.ok [])).1.count "s1" = 2) ∧
    (((((MemoryStore.empty 100 false).add ⟨Role.user, "hello", some "s1", none⟩
        (.ok [])).1.add ⟨Role.assistant, "hi", some "s1", none⟩ (.ok [])).1.clear "s1").1.count "s1" = 0) := by
  refine ⟨?_, fun _ => rfl, ?_, by decide, by decide, by decide⟩
  · rcases (add_getBySession st inp eo).2 with heq
    by_cases hov : st.maxEntries <
        (st.getBySession (st.addedEntry inp eo).sessionId).length + 1
    · rw [heq, if_pos hov]
      have hne : ¬ st.getBySession (st.addedEntry inp eo).sessionId = [] := by
        intro hnil
        rw [hnil] at hov
        simp at hov
        omega
      exact ⟨(st.getBySession (st.addedEntry inp eo).sessionId).tail,
        tail_append_singleton_of_ne_nil _ hne⟩
    · rw [heq, if_neg hov]
      exact ⟨st.getBySession (st.addedEntry inp eo).sessionId, rfl⟩
  · intro sid
    constructor
    · show (((st.clear sid).1).getBySession sid).length = 0
      show ((st.entries.filter (fun e => ¬ e.sessionId = sid)).filter
        (fun e => e.sessionId = sid)).length = 0
      rw [filter_not_filter_self (fun e : MemoryEntry => e.sessionId = sid) st.entries]
      rfl
    · show (st.entries.filter (fun e => ¬ e.sessionId = sid)).filter
        (fun e => e.sessionId = sid) = []
      exact filter_not_filter_self (fun e : MemoryEntry => e.sessionId = sid) st.entries

theorem mem_eraseP_append_singleton {α : Type} (p : α → Bool) (l : List α)
    (a : α) (b : α) (hb : b ∈ l) (hpb : p b = true) :
    a ∈ (l ++ [a]).eraseP p := by
  induction l with
  | nil => cases hb
  | cons x xs ih =>
    by_cases hx : p x
    · rw [List.cons_append, List.eraseP_cons_of_pos hx]
      exact List.mem_append_right _ (List.mem_singleton.mpr rfl)
    · rw [List.cons_append, List.eraseP_cons_of_neg hx]
      rcases List.mem_cons.mp hb with hbx | hbx
      · exact absurd (hbx ▸ hpb) hx
      · exact List.mem_cons_of_mem x (ih hbx)

/-- As long as the cap admits one entry (`1 ≤ maxEntries`), the entry an
`add` constructs is in the store afterwards: eviction only ever removes an
older entry of the same session. -/
theorem addedEntry_mem (st : MemoryStore) (inp : AddInput)
    (eo : Except EmbedError Vec) (hmax : 1 ≤ st.maxEntries) :
    st.addedEntry inp eo ∈ (st.add inp eo).1.entries := by
  set entry := st.addedEntry inp eo with hentry
  show entry ∈ ((st.add inp eo).1).entries
  simp only [MemoryStore.add]
  by_cases hov : st.maxEntries <
      ((st.entries ++ [entry]).filter (fun e => e.sessionId = entry.sessionId)).length
  · rw [if_pos hov]
    have hfill : (st.entries ++ [entry]).filter (fun e => e.sessionId = entry.sessionId) =
        st.entries.filter (fun e => e.sessionId = entry.sessionId) ++ [entry] := by
      rw [List.filter_append]
      simp
    have hpos : 0 < (st.entries.filter (fun e => e.sessionId = entry.sessionId)).length := by
      rw [hfill, List.length_append, List.length_singleton] at hov
      omega
    obtain ⟨b, hb⟩ := List.exists_mem_of_length_pos hpos
    have hbmem := (List.mem_filter.mp hb).1
    have hbp := (List.mem_filter.mp hb).2
    exact mem_eraseP_append_singleton _ st.entries entry b hbmem hbp
  · rw [if_neg hov]
    exact List.mem_append_right _ (List.mem_singleton.mpr rfl)

/-- C7: with embeddings enabled, a failing embedding computation never fails
the `add` itself: the entry is still stored (without a retrievable embedding),
the Vector Index gains nothing (already-committed state is untouched apart
from the documented eviction policy), other sessions are unchanged, and the
failure is reported distinctly in the call's report rather than silently
dropped. -/
theorem add_tolerates_embedding_failure (st : MemoryStore) (inp : AddInput)
    (err : EmbedError) (hemb : st.enableEmbeddings = true)
    (hmax : 1 ≤ st.maxEntries) :
    st.addedEntry inp (.error err) ∈ (st.add inp (.error err)).1.entries ∧
    (st.addedEntry inp (.error err)).embedding = none ∧
    (st.add inp (.error err)).2.embeddingError = some err ∧
    (∀ p ∈ (st.add inp (.error err)).1.index.entries, p ∈ st.index.entries) ∧
    (∀ s, ¬ s = (st.addedEntry inp (.error err)).sessionId →
      (st.add inp (.error err)).1.getBySession s = st.getBySession s) := by
  have hembed : (st.addedEntry inp (.error err)).embedding = none := by
    simp [MemoryStore.addedEntry, MemoryStore.freshEntry, hemb, Except.toOption]
  refine ⟨addedEntry_mem st inp _ hmax, hembed, ?_, ?_, fun s hs =>
    (add_getBySession st inp _).1 s hs⟩
  · simp [MemoryStore.add, hemb]
  · intro p hp
    simp only [MemoryStore.add, hembed] at hp
    by_cases hov : st.maxEntries <
        ((st.entries ++ [st.addedEntry inp (.error err)]).filter
          (fun e => e.sessionId = (st.addedEntry inp (.error err)).sessionId)).length
    · rw [if_pos hov] at hp
      rcases hhead : ((st.entries ++ [st.addedEntry inp (.error err)]).filter
          (fun e => e.sessionId = (st.addedEntry inp (.error err)).sessionId)).head?
        with _ | e
      · rw [hhead] at hp
        simpa using hp
      · rw [hhead] at hp
        have hp' : p ∈ (st.index.remove e.id).entries := by simpa using hp
        exact List.mem_of_mem_filter hp'
    · rw [if_neg hov] at hp
      simpa using hp

/-- Witness for C7 at a fresh embeddings-enabled store. -/
theorem add_tolerates_embedding_failure_witness :
    (MemoryStore.empty 100 true).addedEntry ⟨Role.user, "hello", some "s1", none⟩
        (.error ⟨"provider down"⟩) ∈
      ((MemoryStore.empty 100 true).add ⟨Role.user, "hello", some "s1", none⟩
        (.error ⟨"provider down"⟩)).1.entries ∧
    ((MemoryStore.empty 100 true).add ⟨Role.user, "hello", some "s1", none⟩
        (.error ⟨"provider down"⟩)).2.embeddingError = some ⟨"provider down"⟩ :=
  ⟨(add_tolerates_embedding_failure (MemoryStore.empty 100 true)
      ⟨Role.user, "hello", some "s1", none⟩ ⟨"provider down"⟩ rfl (by decide)).1,
   (add_tolerates_embedding_failure (MemoryStore.empty 100 true)
      ⟨Role.user, "hello", some "s1", none⟩ ⟨"provider down"⟩ rfl (by decide)).2.2.1⟩

/-- Witness for C6 at a freshly constructed store with `maxEntries = 100`. -/
theorem memory_store_session_log_witness :
    (MemoryStore.empty 100 false).count "s1" =
      ((MemoryStore.empty 100 false).entries.filter
        (fun e => e.sessionId = "s1")).length :=
  (memory_store_session_log (MemoryStore.empty 100 false)
    ⟨Role.user, "hello", some "s1", none⟩ (.ok []) (by decide)).2.1 "s1"

/-- C4: `searchSimilar` with a session id supplied queries the index
restricted to that session's entries (pre-filtering, by definition of the
model, so `limit` applies within the session), hence every result's id is the
id of an entry of that session, scores meet the threshold, at most `limit`
results come back, and results are sorted descending by score. -/
theorem searchSimilar_session_scoped (st : MemoryStore) (sim : Vec → Vec → ℚ)
    (qv : Vec) (sid : String) (limit : Nat) (threshold : ℚ) :
    (∀ p ∈ st.searchSimilar sim qv (some sid) limit threshold,
      p.1 ∈ st.sessionIds sid) ∧
    (st.searchSimilar sim qv (some sid) limit threshold).length ≤ limit ∧
    (∀ p ∈ st.searchSimilar sim qv (some sid) limit threshold, threshold ≤ p.2) ∧
    (st.searchSimilar sim qv (some sid) limit threshold).Pairwise
      (fun a b => b.2 ≤ a.2) ∧
    st.searchSimilar sim qv (some sid) limit threshold =
      VIndex.query ⟨st.index.entries.filter (fun p => p.1 ∈ st.sessionIds sid)⟩
        sim qv limit threshold := by
  have hdef : st.searchSimilar sim qv (some sid) limit threshold =
      VIndex.query ⟨st.index.entries.filter (fun p => p.1 ∈ st.sessionIds sid)⟩
        sim qv limit threshold := rfl
  refine ⟨?_, ?_, ?_, ?_, hdef⟩
  · intro p hp
    rw [hdef] at hp
    obtain ⟨q, hq, hpq⟩ := mem_query_id _ sim qv limit threshold p hp
    have hmem := List.mem_filter.mp hq
    rw [hpq]
    exact of_decide_eq_true hmem.2
  · rw [hdef]
    exact query_length_le _ sim qv limit threshold
  · rw [hdef]
    exact query_threshold _ sim qv limit threshold
  · rw [hdef]
    exact query_sorted _ sim qv limit threshold

theorem mem_eraseP_of_head_ne {α : Type} (p : α → Bool) (l : List α)
    (b e0 : α) (hb : b ∈ l) (hhead : (l.filter p).head? = some e0)
    (hne : ¬ b = e0) : b ∈ l.eraseP p := by
  induction l with
  | nil => cases hb
  | cons x xs ih =>
    by_cases hx : p x
    · rw [List.filter_cons_of_pos hx] at hhead
      have hx0 : x = e0 := by simpa using hhead
      rw [List.eraseP_cons_of_pos hx]
      rcases List.mem_cons.mp hb with h | h
      · exact absurd (h.trans hx0) hne
      · exact h
    · rw [List.filter_cons_of_neg hx] at hhead
      rw [List.eraseP_cons_of_neg hx]
      rcases List.mem_cons.mp hb with h | h
      · exact h ▸ List.mem_cons_self x _
      · exact List.mem_cons_of_mem x (ih h hhead)

theorem mem_upsert {idx : VIndex} {id : Nat} {v : Vec} {p : Nat × Vec}
    (hp : p ∈ (idx.upsert id v).entries) :
    p = (id, v) ∨ (p ∈ idx.entries ∧ ¬ p.1 = id) := by
  rw [VIndex.upsert] at hp
  by_cases hany : idx.entries.any (fun q => q.1 = id)
  · rw [if_pos hany] at hp
    obtain ⟨q, hq, hpq⟩ := List.mem_map.mp hp
    by_cases hqid : q.1 = id
    · left
      rw [← hpq, if_pos hqid]
    · right
      rw [← hpq, if_neg hqid]
      exact ⟨hq, hqid⟩
  · rw [if_neg hany] at hp
    rcases List.mem_append.mp hp with h | h
    · right
      refine ⟨h, fun hid => hany ?_⟩
      exact List.any_eq_true.mpr ⟨p, h, by simp [hid]⟩
    · left
      simpa using h

/-- The index of a reachable store only holds embeddings whose id belongs to
a live entry. -/
theorem reachable_index_live (st : MemoryStore) (h : Reachable st) :
    ∀ p ∈ st.index.entries, ∃ e ∈ st.entries, e.id = p.1 := by
  induction h with
  | init maxEntries enableEmbeddings => intro p hp; cases hp
  | add st inp eo hst ih =>
    intro p hp
    simp only [MemoryStore.add] at hp ⊢
    by_cases hov : st.maxEntries <
        ((st.entries ++ [st.addedEntry inp eo]).filter
          (fun e => e.sessionId = (st.addedEntry inp eo).sessionId)).length
    · rw [if_pos hov] at hp ⊢
      rcases hhead : ((st.entries ++ [st.addedEntry inp eo]).filter
          (fun e => e.sessionId = (st.addedEntry inp eo).sessionId)).head?
        with _ | e0
      · exfalso
        have hnil := List.head?_eq_none_iff.mp hhead
        have : st.addedEntry inp eo ∈ (st.entries ++ [st.addedEntry inp eo]).filter
            (fun e => e.sessionId = (st.addedEntry inp eo).sessionId) :=
          List.mem_filter.mpr
            ⟨List.mem_append_right _ (List.mem_singleton.mpr rfl), by simp⟩
        rw [hnil] at this
        cases this
      · rw [hhead] at hp
        have hp' : p ∈ ((match (st.addedEntry inp eo).embedding with
            | some v => st.index.upsert (st.addedEntry inp eo).id v
            | none => st.index).remove e0.id).entries := by simpa using hp
        rw [VIndex.remove] at hp'
        have hpmem := List.mem_filter.mp hp'
        have hpne : ¬ p.1 = e0.id := of_decide_eq_true hpmem.2
        have hp1 := hpmem.1
        rcases hemb : (st.addedEntry inp eo).embedding with _ | v
        · rw [hemb] at hp1
          obtain ⟨e, he, heid⟩ := ih p hp1
          refine ⟨e, ?_, heid⟩
          exact mem_eraseP_of_head_ne _ _ e e0
            (List.mem_append_left _ he) hhead
            (fun hc => hpne (heid ▸ congrArg MemoryEntry.id hc ▸ rfl))
        · rw [hemb] at hp1
          rcases mem_upsert hp1 with hpv | ⟨hpold, _⟩
          · refine ⟨st.addedEntry inp eo, ?_, by rw [hpv]⟩
            refine mem_eraseP_of_head_ne _ _ _ e0
              (List.mem_append_right _ (List.mem_singleton.mpr rfl)) hhead ?_
            intro hc
            apply hpne
            rw [hpv, ← hc]
          · obtain ⟨e, he, heid⟩ := ih p hpold
            refine ⟨e, ?_, heid⟩
            exact mem_eraseP_of_head_ne _ _ e e0
              (List.mem_append_left _ he) hhead
              (fun hc => hpne (heid ▸ congrArg MemoryEntry.id hc ▸ rfl))
    · rw [if_neg hov] at hp ⊢
      have hp1 : p ∈ (match (st.addedEntry inp eo).embedding with
          | some v => st.index.upsert (st.addedEntry inp eo).id v
          | none => st.index).entries := by simpa using hp
      rcases hemb : (st.addedEntry inp eo).embedding with _ | v
      · rw [hemb] at hp1
        obtain ⟨e, he, heid⟩ := ih p hp1
        exact ⟨e, List.mem_append_left _ he, heid⟩
      · rw [hemb] at hp1
        rcases mem_upsert hp1 with hpv | ⟨hpold, _⟩
        · exact ⟨st.addedEntry inp eo,
            List.mem_append_right _ (List.mem_singleton.mpr rfl), by rw [hpv]⟩
        · obtain ⟨e, he, heid⟩ := ih p hpold
          exact ⟨e, List.mem_append_left _ he, heid⟩
  | delete st ids hst ih =>
    intro p hp
    have hpmem := List.mem_filter.mp hp
    have hp1 := hpmem.1
    have hpnotin : ¬ p.1 ∈ ids := of_decide_eq_true hpmem.2
    obtain ⟨e, he, heid⟩ := ih p hp1
    refine ⟨e, List.mem_filter.mpr ⟨he, ?_⟩, heid⟩
    simp only [decide_eq_true_eq]
    rw [heid]
    exact hpnotin
  | clear st sid hst ih =>
    intro p hp
    have hpmem := List.mem_filter.mp hp
    have hp1 := hpmem.1
    have hpnotin : ¬ p.1 ∈ (st.entries.filter
        (fun e => e.sessionId = sid)).map (fun e => e.id) :=
      of_decide_eq_true hpmem.2
    obtain ⟨e, he, heid⟩ := ih p hp1
    refine ⟨e, List.mem_filter.mpr ⟨he, ?_⟩, heid⟩
    simp only [decide_eq_true_eq]
    intro hsid
    apply hpnotin
    rw [← heid]
    exact List.mem_map.mpr ⟨e, List.mem_filter.mpr ⟨he, by simp [hsid]⟩, rfl⟩

/-- C5: in every reachable state the Vector Index holds no embedding without
a live source entry; `delete(ids)` and `clear(sessionId)` cascade the removal
of the corresponding vector-index records; and upserting an id and then
removing it makes that id unreachable by every subsequent query. -/
theorem vector_index_no_orphans (st : MemoryStore) (h : Reachable st) :
    (∀ p ∈ st.index.entries, ∃ e ∈ st.entries, e.id = p.1) ∧
    (∀ ids i, i ∈ ids → ∀ p ∈ ((st.delete ids).1).index.entries, ¬ p.1 = i) ∧
    (∀ sid e, e ∈ st.entries → e.sessionId = sid →
      ∀ p ∈ ((st.clear sid).1).index.entries, ¬ p.1 = e.id) ∧
    (∀ id v sim qv limit threshold,
      ∀ p ∈ ((st.index.upsert id v).remove id).query sim qv limit threshold,
        ¬ p.1 = id) := by
  refine ⟨reachable_index_live st h, ?_, ?_, ?_⟩
  · intro ids i hi p hp
    have hpmem := List.mem_filter.mp hp
    have hpnotin : ¬ p.1 ∈ ids := of_decide_eq_true hpmem.2
    intro hpi
    exact hpnotin (hpi ▸ hi)
  · intro sid e he hesid p hp
    have hpmem := List.mem_filter.mp hp
    have hpnotin : ¬ p.1 ∈ (st.entries.filter
        (fun x => x.sessionId = sid)).map (fun x => x.id) :=
      of_decide_eq_true hpmem.2
    intro hpe
    apply hpnotin
    rw [hpe]
    exact List.mem_map.mpr ⟨e, List.mem_filter.mpr ⟨he, by simp [hesid]⟩, rfl⟩
  · intro id v sim qv limit threshold p hp
    obtain ⟨q, hq, hpq⟩ := mem_query_id _ sim qv limit threshold p hp
    have hqmem := List.mem_filter.mp hq
    have hqne : ¬ q.1 = id := of_decide_eq_true hqmem.2
    rw [hpq]
    exact hqne

/-- Witness for C5 at a reachable one-entry embeddings-enabled store: the
single indexed embedding, keyed by id `0`, has a live source entry. -/
theorem vector_index_no_orphans_witness :
    ∃ e ∈ (((MemoryStore.empty 10 true).add ⟨Role.user, "hello", some "s1", none⟩
        (.ok [1, 0])).1).entries, e.id = 0 :=
  (vector_index_no_orphans _
    (Reachable.add (MemoryStore.empty 10 true) ⟨Role.user, "hello", some "s1", none⟩
      (.ok [1, 0]) (Reachable.init 10 true))).1 (0, [1, 0]) (by decide)

/-- C10: an `add` that omits `sessionId` stores the entry under the session
identifier `"default"` (per `memory.mdx`: "Optional, defaults to 'default'"),
so a subsequent `getBySession "default"` returns it.  `sessionId` is an
optional field of `AddInput`, not a required precondition. -/
theorem add_default_session (st : MemoryStore) (inp : AddInput)
    (eo : Except EmbedError Vec) (hnone : inp.sessionId = none)
    (hmax : 1 ≤ st.maxEntries) :
    (st.addedEntry inp eo).sessionId = "default" ∧
    st.addedEntry inp eo ∈ (st.add inp eo).1.getBySession "default" := by
  have hsid : (st.addedEntry inp eo).sessionId = "default" := by
    simp [MemoryStore.addedEntry, MemoryStore.freshEntry, hnone]
  exact ⟨hsid,
    List.mem_filter.mpr ⟨addedEntry_mem st inp eo hmax, by simp [hsid]⟩⟩

/-- Witness for C10 on a fresh store and an input with no session id. -/
theorem add_default_session_witness :
    ((MemoryStore.empty 100 false).addedEntry ⟨Role.user, "hi", none, none⟩
      (.ok [])).sessionId = "default" ∧
    (MemoryStore.empty 100 false).addedEntry ⟨Role.user, "hi", none, none⟩ (.ok []) ∈
      ((MemoryStore.empty 100 false).add ⟨Role.user, "hi", none, none⟩
        (.ok [])).1.getBySession "default" :=
  add_default_session (MemoryStore.empty 100 false) ⟨Role.user, "hi", none, none⟩
    (.ok []) rfl (by decide)

/-! ## Configuration surface

The two configuration tables below are embedded from the repository's own
documentation pages (the one part of the engine's contract that is stated
directly in source files of this repository): the options table of
`src/content/docs/concepts/memory.mdx` and the options table of
`src/content/docs/concepts/rag.mdx`. -/

/-- A construction-time configuration failure: a required option was not
supplied. -/
inductive ConfigError where
  | missingRequired (field : String)
deriving DecidableEq

/-- A resolved memory configuration (engine-visible options of the
`memory.mdx` table; `database`, `embeddingProvider` and `embeddingDimension`
are external handles with no engine-visible resolution). -/
structure MemoryConfig where
  tableName : String
  maxEntries : Nat
  enableEmbeddings : Bool
deriving DecidableEq

/-- Embedded from the options table of `memory.mdx`: `tableName` is marked
Required (no default); `maxEntries` defaults to `100`; `enableEmbeddings`
defaults to `false`. -/
def resolveMemoryConfig (tableName : Option String) (maxEntries : Option Nat)
    (enableEmbeddings : Option Bool) : Except ConfigError MemoryConfig :=
  match tableName with
  | none => .error (.missingRequired "tableName")
  | some t => .ok ⟨t, maxEntries.getD 100, enableEmbeddings.getD false⟩

/-- A resolved RAG configuration (engine-visible options of the `rag.mdx`
table). -/
structure RAGConfig where
  tableName : String
  chunkSize : Nat
  chunkOverlap : Nat
  maxDocuments : Option Nat
  maxResultsPerQuery : Nat
deriving DecidableEq

/-- Embedded from the options table of `rag.mdx`: `tableName` defaults to
`"rag_embeddings"`, `chunkSize` to `1000`, `chunkOverlap` to `200`,
`maxResultsPerQuery` to `5`; `maxDocuments` is optional with no default. -/
def resolveRAGConfig (tableName : Option String)
    (chunkSize chunkOverlap maxDocuments maxResultsPerQuery : Option Nat) :
    Except ConfigError RAGConfig :=
  .ok ⟨tableName.getD "rag_embeddings", chunkSize.getD 1000,
    chunkOverlap.getD 200, maxDocuments, maxResultsPerQuery.getD 5⟩

/-- C9 counterexample: constructing a memory instance without supplying
`tableName` does not succeed — the `memory.mdx` options table marks
`tableName` as Required, so it has no default for memory instances,
contradicting the claim that every listed option is optional. -/
theorem memory_tableName_required :
    resolveMemoryConfig none none none = .error (.missingRequired "tableName") :=
  rfl

/-- C9 (amended): the listed options are optional with the stated defaults —
`maxEntries = 100`, `enableEmbeddings = false`, `chunkSize = 1000`,
`chunkOverlap = 200`, `maxResultsPerQuery = 5`, and RAG's `tableName`
defaults to `"rag_embeddings"` — except that a memory instance's `tableName`
is required and must be supplied (it has no default); construction with the
optional options omitted succeeds and behaves per those defaults. -/
theorem config_defaults :
    resolveMemoryConfig (some "agent_memories") none none =
      .ok ⟨"agent_memories", 100, false⟩ ∧
    resolveRAGConfig none none none none none =
      .ok ⟨"rag_embeddings", 1000, 200, none, 5⟩ :=
  ⟨rfl, rfl⟩

end Astreus
